import Mathlib

/-!
Verification of the langpack `LanguageManager` (src/src/index.js).

The development shallowly embeds the JavaScript source: JS objects become
association lists (`List (String × _)`) with JS object-update semantics
(updating an existing key keeps its position, a new key is appended),
JS values relevant to the library become the inductive `JVal`, and the
filesystem / parser / watcher collaborators become explicit oracles.
-/

namespace Langpack

/-- JS values as they occur in this library: parsed JSON trees and the
`args` objects passed to `get`.  JS numbers are embedded as integers
(the only numbers the claims exercise). -/
inductive JVal where
  | vstr : String → JVal
  | vnum : Int → JVal
  | vbool : Bool → JVal
  | vnull : JVal
  | vundef : JVal
  | varr : List JVal → JVal
  | vobj : List (String × JVal) → JVal

mutual

/-- JS `String(v)` conversion for the embedded values. -/
def jsToString : JVal → String
  | JVal.vstr s => s
  | JVal.vnum n => toString n
  | JVal.vbool b => if b then "true" else "false"
  | JVal.vnull => "null"
  | JVal.vundef => "undefined"
  | JVal.varr xs => String.intercalate "," (jsArrElems xs)
  | JVal.vobj _ => "[object Object]"
termination_by v => sizeOf v

/-- `Array.prototype.toString` stringifies elements with `null` and
`undefined` becoming the empty string. -/
def jsArrElems : List JVal → List String
  | [] => []
  | JVal.vnull :: rest => "" :: jsArrElems rest
  | JVal.vundef :: rest => "" :: jsArrElems rest
  | v :: rest => jsToString v :: jsArrElems rest
termination_by l => sizeOf l

end

/-- JS `v ?? ''` (nullish coalescing against the empty string). -/
def nullishToEmpty : JVal → JVal
  | JVal.vnull => JVal.vstr ""
  | JVal.vundef => JVal.vstr ""
  | v => v

/-- JS `\w` character class: ASCII letters, digits, underscore. -/
def isWordChar (c : Char) : Bool := c.isAlpha || c.isDigit || c == '_'

/-- JS object read `values[key]` restricted to own properties
(`Object.prototype.hasOwnProperty.call(values, key)` guards the read). -/
def lookupArg (values : List (String × JVal)) (k : String) : Option JVal :=
  match values.find? (fun kv => kv.1 == k) with
  | some kv => some kv.2
  | none => none

/-- The replacement string for a matched placeholder, from
`_replacePlaceholders`: arrays map elements through `String(v ?? '')`
and join with a comma-space; anything else is `String(value ?? '')`. -/
def jsSubstValue : JVal → String
  | JVal.varr xs => String.intercalate ", " (xs.map fun v => jsToString (nullishToEmpty v))
  | v => jsToString (nullishToEmpty v)

/-- The scan performed by `template.replace(/{(\w+)}/g, ...)` over the
template characters: at a brace, the maximal run of word characters
followed by a closing brace forms a token; a token whose identifier is
not an own property of `values` is kept verbatim, otherwise it is
replaced by `jsSubstValue`; everything else is copied. -/
def replaceAux (values : List (String × JVal)) : List Char → List Char
  | [] => []
  | c :: rest =>
    if c = '{' then
      let run := rest.takeWhile isWordChar
      let after := rest.drop run.length
      if after.head? = some '}' ∧ run ≠ [] then
        match lookupArg values (String.mk run) with
        | none => c :: (run ++ '}' :: replaceAux values after.tail)
        | some v => (jsSubstValue v).data ++ replaceAux values after.tail
      else c :: replaceAux values rest
    else c :: replaceAux values rest
termination_by l => l.length
decreasing_by
  all_goals simp_wf
  all_goals omega

/-- `LanguageManager._replacePlaceholders` (src/src/index.js lines 71-86). -/
def replacePlaceholders (template : String) (values : List (String × JVal)) : String :=
  if values.isEmpty then template
  else String.mk (replaceAux values template.data)

/-- JS object property write `m[k] = v`: an existing key keeps its
position and gets the new value, a new key is appended. -/
def objInsert {α : Type} : List (String × α) → String → α → List (String × α)
  | [], k, v => [(k, v)]
  | (k', v') :: rest, k, v =>
    if k' = k then (k, v) :: rest else (k', v') :: objInsert rest k v

/-- JS `delete m[k]` (keys are unique in any table the code builds, so
removing every occurrence of the key is the same removal). -/
def objDelete {α : Type} : List (String × α) → String → List (String × α)
  | [], _ => []
  | (k0, v0) :: rest, k => if k0 = k then objDelete rest k else (k0, v0) :: objDelete rest k

/-- JS `Object.assign(m, other)`: each entry of `other` is written into
`m` in order. -/
def objAssign {α : Type} (m other : List (String × α)) : List (String × α) :=
  other.foldl (fun acc kv => objInsert acc kv.1 kv.2) m

/-- JS object property read `m[k]` (`undefined`, i.e. `none`, if absent). -/
def lookupTable {α : Type} : List (String × α) → String → Option α
  | [], _ => none
  | (k', v) :: rest, k => if k' = k then some v else lookupTable rest k

/-- A per-locale flat resource map: dotted key paths to strings. -/
abbrev FlatMap := List (String × String)

/-- The Locale Table `this.languages`: locale identifier to flat map. -/
abbrev Table := List (String × FlatMap)

/-- `LanguageManager._flatten` (src/src/index.js lines 50-62), with the
result object threaded explicitly: a nested plain object recurses (its
flat entries are `Object.assign`ed into the result), any other value is
stored as `String(value ?? '')` under the composed key. -/
def flattenAux (sep parentKey : String) : List (String × JVal) → FlatMap → FlatMap
  | [], result => result
  | (key, value) :: rest, result =>
    let fullKey := if parentKey = "" then key else parentKey ++ sep ++ key
    match value with
    | JVal.vobj sub =>
      flattenAux sep parentKey rest (objAssign result (flattenAux sep fullKey sub []))
    | v =>
      flattenAux sep parentKey rest (objInsert result fullKey (jsToString (nullishToEmpty v)))
termination_by entries _ => sizeOf entries

/-- `LanguageManager._flatten(obj, separator)` at the root. -/
def flatten (tree : List (String × JVal)) (sep : String) : FlatMap :=
  flattenAux sep "" tree []

/-- JS `filename.endsWith('.json')`, expressed on the character level
(the string ends with the five characters of the extension). -/
def endsWithJson (filename : String) : Bool :=
  ".json".data.isSuffixOf filename.data

/-- `path.basename(filename, '.json')` for the bare filenames produced by
`readdirSync` and `fs.watch`: strip the extension when present. -/
def basenameNoJson (filename : String) : String :=
  if endsWithJson filename then String.mk (filename.data.take (filename.data.length - 5))
  else filename

/-- `LanguageManager._loadFile` (src/src/index.js lines 93-106), with the
read+parse outcome supplied by an oracle: on success the locale entry is
overwritten with the flattened tree, on a read or parse error the locale
entry is deleted (the catch block runs `delete this.languages[...]`). -/
def loadFileStep (sep : String) (langs : Table) (filename : String)
    (parsed : Option (List (String × JVal))) : Table :=
  match parsed with
  | some tree => objInsert langs (basenameNoJson filename) (flatten tree sep)
  | none => objDelete langs (basenameNoJson filename)

/-- `LanguageManager.loadLanguages` (src/src/index.js lines 112-123):
every `.json` entry of the directory listing is loaded in turn; each
load handles its own failure, so the loop always continues. -/
def loadLanguages (sep : String) (files : List String)
    (contents : String → Option (List (String × JVal))) (langs : Table) : Table :=
  files.foldl
    (fun t f => if endsWithJson f then loadFileStep sep t f (contents f) else t) langs

/-- `LanguageManager.get` (src/src/index.js lines 198-206). -/
def get (langs : Table) (locale key : String) (args : List (String × JVal)) :
    Except String String :=
  match lookupTable langs locale with
  | none => Except.error ("Locale '" ++ locale ++ "' not found")
  | some translations =>
    Except.ok (replacePlaceholders ((lookupTable translations key).getD key) args)

/-- Outcome of the `statSync` existence check at timer-fire time. -/
inductive StatResult where
  | found : StatResult
  | notFound : StatResult
  | statError : StatResult

/-- One reconciliation action of the watcher: a reload (`_loadFile`
invocation) or the plain entry removal done for a vanished file. -/
inductive Action where
  | reload : String → Action
  | evict : String → Action
deriving DecidableEq

/-- The body of the debounce timeout in `watchDirectory`
(src/src/index.js lines 142-178): switch on the captured event kind,
check existence, then either `_loadFile`, delete the locale entry, or do
nothing.  Returns the updated Locale Table and the actions performed. -/
def fireReconcile (sep : String) (event : String) (stat : StatResult)
    (parsed : Option (List (String × JVal))) (langs : Table) (filename : String) :
    Table × List Action :=
  match event with
  | "change" =>
    match stat with
    | StatResult.found => (loadFileStep sep langs filename parsed, [Action.reload filename])
    | _ => (langs, [])
  | "rename" =>
    match stat with
    | StatResult.found => (loadFileStep sep langs filename parsed, [Action.reload filename])
    | StatResult.notFound =>
      (objDelete langs (basenameNoJson filename), [Action.evict (basenameNoJson filename)])
    | StatResult.statError => (langs, [])
  | _ => (langs, [])

/-- The fixed debounce window `this.debounceDelay` (milliseconds). -/
def debounceDelay : Nat := 100

/-- A raw watcher notification: arrival time, event kind
(`"change"` or `"rename"`), filename. -/
structure Notif where
  time : Nat
  event : String
  filename : String

/-- A pending debounce entry of `this.debounceMap`: the armed timeout
for a filename, with the locale and event kind captured at arming time
and the absolute deadline `now + debounceDelay`. -/
structure Timer where
  filename : String
  locale : String
  event : String
  deadline : Nat
deriving DecidableEq

/-- The watcher callback in `watchDirectory` (src/src/index.js lines
131-141, 179-182): a notification for a `.json` filename clears any
pending timeout for that filename and arms a fresh full-delay one;
other filenames are ignored. -/
def notify (pending : List Timer) (now : Nat) (event filename : String) : List Timer :=
  if endsWithJson filename then
    ⟨filename, basenameNoJson filename, event, now + debounceDelay⟩ ::
      pending.filter (fun t => t.filename ≠ filename)
  else pending

/-- The armed timeout with the smallest deadline (the next one the
runtime will fire). -/
def earliest : List Timer → Option Timer
  | [] => none
  | t :: rest =>
    match earliest rest with
    | none => some t
    | some u => if t.deadline ≤ u.deadline then some t else some u

/-- The timer returned by `earliest` is one of the pending timers. -/
theorem earliest_mem : ∀ {l : List Timer} {t : Timer}, earliest l = some t → t ∈ l := by
  intro l
  induction l with
  | nil => intro t h; simp [earliest] at h
  | cons a rest ih =>
    intro t h
    simp only [earliest] at h
    cases hrest : earliest rest with
    | none =>
      rw [hrest] at h
      simp at h
      simp [h]
    | some u =>
      rw [hrest] at h
      by_cases hd : a.deadline ≤ u.deadline
      · simp [hd] at h
        simp [h]
      · simp [hd] at h
        exact List.mem_cons_of_mem a (h ▸ ih hrest)

/-- Re-arming a timer adds at most one entry to the pending map. -/
theorem notify_length_le (pending : List Timer) (now : Nat) (event filename : String) :
    (notify pending now event filename).length ≤ pending.length + 1 := by
  unfold notify
  split
  · simp only [List.length_cons]
    exact Nat.succ_le_succ (List.length_filter_le _ _)
  · omega

/-- The single-threaded event loop driving `watchDirectory`: consume the
notification stream in order, firing any armed timeout whose deadline
precedes the next notification; at the end fire whatever is still
pending.  A fired timeout is removed from the map before its
reconciliation runs (the body starts with `debounceMap.delete`). -/
def runLoop (sep : String) (stat : String → StatResult)
    (contents : String → Option (List (String × JVal))) :
    List Notif → List Timer → Table → Table × List Action
  | [], pending, langs =>
    match _hearliest : earliest pending with
    | none => (langs, [])
    | some t =>
      let r := fireReconcile sep t.event (stat t.filename) (contents t.filename) langs t.filename
      let rest := runLoop sep stat contents [] (pending.erase t) r.1
      (rest.1, r.2 ++ rest.2)
  | n :: ns, pending, langs =>
    match _hearliest : earliest pending with
    | some t =>
      if t.deadline < n.time then
        let r := fireReconcile sep t.event (stat t.filename) (contents t.filename) langs t.filename
        let rest := runLoop sep stat contents (n :: ns) (pending.erase t) r.1
        (rest.1, r.2 ++ rest.2)
      else
        runLoop sep stat contents ns (notify pending n.time n.event n.filename) langs
    | none => runLoop sep stat contents ns (notify pending n.time n.event n.filename) langs
termination_by notifs pending _ => 2 * notifs.length + pending.length
decreasing_by
  all_goals simp_wf
  all_goals first
    | (have hm := earliest_mem _hearliest
       have hlen := List.length_erase_of_mem hm
       have hpos := List.length_pos.mpr (List.ne_nil_of_mem hm)
       omega)
    | (have hb := notify_length_le pending n.time n.event n.filename
       omega)

/-! ## Association-list lemmas for the JS object embedding -/

/-- Reading after a property write: the written key yields the new
value, any other key is unaffected. -/
theorem lookupTable_objInsert {α : Type} (m : List (String × α)) (k q : String) (v : α) :
    lookupTable (objInsert m k v) q = if k = q then some v else lookupTable m q := by
  induction m with
  | nil => simp [objInsert, lookupTable]
  | cons kv rest ih =>
    obtain ⟨k0, v0⟩ := kv
    by_cases h0 : k0 = k
    · subst h0
      by_cases hq : k0 = q <;> simp [objInsert, lookupTable, hq]
    · by_cases hq : k0 = q
      · subst hq
        have hk : ¬ (k = k0) := fun hh => h0 hh.symm
        simp [objInsert, lookupTable, h0, hk]
      · simp [objInsert, lookupTable, h0, hq, ih]

/-- Reading after a property delete: the deleted key is gone, any other
key is unaffected. -/
theorem lookupTable_objDelete {α : Type} (m : List (String × α)) (k q : String) :
    lookupTable (objDelete m k) q = if k = q then none else lookupTable m q := by
  induction m with
  | nil => simp [objDelete, lookupTable]
  | cons kv rest ih =>
    obtain ⟨k0, v0⟩ := kv
    by_cases h0 : k0 = k
    · subst h0
      by_cases hq : k0 = q
      · subst hq
        simp [objDelete, lookupTable, ih]
      · simp [objDelete, lookupTable, hq, ih]
    · by_cases hq : k0 = q
      · subst hq
        have hk : ¬ (k = k0) := fun hh => h0 hh.symm
        simp [objDelete, lookupTable, h0, hk]
      · simp [objDelete, lookupTable, h0, hq, ih]

/-! ## C5 -/

/-- C5: for every locale with no entry in the Locale Table, `get` fails
with the `LocaleNotFound` error, whose message names the requested
locale; and this is the only error of the lookup path, since a locale
with an entry always yields `Except.ok`. -/
theorem claim_c5 :
    (∀ (langs : Table) (locale key : String) (args : List (String × JVal)),
        lookupTable langs locale = none →
        get langs locale key args = Except.error ("Locale '" ++ locale ++ "' not found"))
    ∧ (∀ (langs : Table) (locale key : String) (args : List (String × JVal)) (m : FlatMap),
        lookupTable langs locale = some m →
        get langs locale key args =
          Except.ok (replacePlaceholders ((lookupTable m key).getD key) args)) := by
  constructor
  · intro langs locale key args h
    simp [get, h]
  · intro langs locale key args m h
    simp [get, h]

/-- Witness for C5 at concrete inputs. -/
theorem claim_c5_witness :
    get [] "de" "greeting" [] = Except.error ("Locale '" ++ "de" ++ "' not found")
    ∧ get [("en", [("greeting", "Hello")])] "en" "greeting" [] =
        Except.ok (replacePlaceholders
          ((lookupTable [("greeting", "Hello")] "greeting").getD "greeting") []) :=
  ⟨claim_c5.1 [] "de" "greeting" [] rfl,
   claim_c5.2 [("en", [("greeting", "Hello")])] "en" "greeting" [] [("greeting", "Hello")]
     (by simp [lookupTable])⟩

/-! ## C10 -/

/-- C10: for a loaded locale and a key absent from its flat map, `get`
does not simply hand the key back: it applies placeholder substitution
to the key before returning it. -/
theorem claim_c10 (langs : Table) (locale key : String) (m : FlatMap)
    (args : List (String × JVal))
    (hm : lookupTable langs locale = some m) (hk : lookupTable m key = none) :
    get langs locale key args = Except.ok (replacePlaceholders key args) := by
  simp [get, hm, hk]

/-- Witness for C10: a missing key consisting of a single token bound in
the args comes back substituted. -/
theorem claim_c10_witness :
    get [("en", [])] "en" "{name}" [("name", JVal.vstr "Bob")] =
      Except.ok (replacePlaceholders "{name}" [("name", JVal.vstr "Bob")])
    ∧ replacePlaceholders "{name}" [("name", JVal.vstr "Bob")] = "Bob" :=
  ⟨claim_c10 _ _ _ _ _ rfl rfl,
   by simp +decide [replacePlaceholders, replaceAux, isWordChar, lookupArg, jsSubstValue,
        nullishToEmpty, jsToString, List.takeWhile_cons]⟩

/-! ## C4 -/

/-- C4 counterexample: locale "en" is loaded and the key is absent, yet
`get` does not return the key itself: the key is a placeholder token
bound in the args, so the result is the substituted value instead. -/
theorem claim_c4_counterexample :
    get [("en", [("greeting", "Hello")])] "en" "{x}" [("x", JVal.vstr "y")] = Except.ok "y"
    ∧ ("y" : String) ≠ "{x}" := by
  constructor
  · simp +decide [get, lookupTable, replacePlaceholders, replaceAux, isWordChar, lookupArg,
      jsSubstValue, nullishToEmpty, jsToString, List.takeWhile_cons]
  · decide

/-- C4 (amended): for every loaded locale and key absent from that
locale's flat map, `get` with empty args returns the key itself rather
than failing (with nonempty args the key first undergoes placeholder
substitution). -/
theorem claim_c4_amended (langs : Table) (locale key : String) (m : FlatMap)
    (hm : lookupTable langs locale = some m) (hk : lookupTable m key = none) :
    get langs locale key [] = Except.ok key := by
  simp [get, hm, hk, replacePlaceholders]

/-- Witness for amended C4: the missing-key fallback of the spec's
end-to-end scenario. -/
theorem claim_c4_amended_witness :
    get [("fr", [("buttons.cancel", "Annuler")])] "fr" "buttons.confirm" [] =
      Except.ok "buttons.confirm" :=
  claim_c4_amended [("fr", [("buttons.cancel", "Annuler")])] "fr" "buttons.confirm"
    [("buttons.cancel", "Annuler")] (by simp [lookupTable]) (by simp [lookupTable])

/-! ## C1 -/

/-- C1 counterexample: locale "en" has an entry in the Locale Table; a
reload of "en.json" whose parse fails deletes the entry instead of
leaving it at its previous value. -/
theorem claim_c1_counterexample :
    lookupTable (loadFileStep "." [("en", [("k", "v")])] "en.json" none) "en" = none
    ∧ lookupTable [("en", [("k", "v")])] "en" = some [("k", "v")] := by
  constructor
  · decide
  · rfl

/-- A load or failed load of one file touches no other locale's entry. -/
theorem lookupTable_loadFileStep_ne (sep : String) (t : Table) (f : String)
    (parsed : Option (List (String × JVal))) (loc : String)
    (hne : ¬ (basenameNoJson f = loc)) :
    lookupTable (loadFileStep sep t f parsed) loc = lookupTable t loc := by
  cases parsed <;>
    simp [loadFileStep, lookupTable_objInsert, lookupTable_objDelete, hne]

/-- Unfolding one step of the directory-load loop. -/
theorem loadLanguages_cons (sep : String) (contents : String → Option (List (String × JVal)))
    (f : String) (fs : List String) (langs : Table) :
    loadLanguages sep (f :: fs) contents langs =
      loadLanguages sep fs contents
        (if endsWithJson f then loadFileStep sep langs f (contents f) else langs) := rfl

/-- The directory-load loop reads a locale's entry only through the
file named after that locale: tables agreeing on a locale before the
loop agree on it afterwards. -/
theorem loadLanguages_lookup_congr (sep : String)
    (contents : String → Option (List (String × JVal))) (loc : String) :
    ∀ (fs : List String) (t1 t2 : Table),
      lookupTable t1 loc = lookupTable t2 loc →
      lookupTable (loadLanguages sep fs contents t1) loc =
        lookupTable (loadLanguages sep fs contents t2) loc := by
  intro fs
  induction fs with
  | nil => intro t1 t2 h; exact h
  | cons f fs ih =>
    intro t1 t2 h
    rw [loadLanguages_cons, loadLanguages_cons]
    apply ih
    by_cases hj : endsWithJson f = true
    · simp only [hj, if_true]
      by_cases hb : basenameNoJson f = loc
      · cases hc : contents f with
        | some tree => simp [loadFileStep, lookupTable_objInsert, hb]
        | none => simp [loadFileStep, lookupTable_objDelete, hb]
      · rw [lookupTable_loadFileStep_ne sep t1 f _ loc hb,
          lookupTable_loadFileStep_ne sep t2 f _ loc hb, h]
    · simp [hj]
      exact h

/-- C1 (amended): a reload whose read or parse fails deletes the
locale's entry from the Locale Table (it is not left at its previous
value); the failure touches no other locale's entry, and during a
directory load a failing file does not affect the loading of the other
files. -/
theorem claim_c1_amended :
    (∀ (sep : String) (langs : Table) (filename : String),
        lookupTable (loadFileStep sep langs filename none) (basenameNoJson filename) = none)
    ∧ (∀ (sep : String) (langs : Table) (filename : String)
         (parsed : Option (List (String × JVal))) (loc : String),
        loc ≠ basenameNoJson filename →
        lookupTable (loadFileStep sep langs filename parsed) loc = lookupTable langs loc)
    ∧ (∀ (sep : String) (contents : String → Option (List (String × JVal)))
         (langs : Table) (fs1 fs2 : List String) (bad loc : String),
        contents bad = none → loc ≠ basenameNoJson bad →
        lookupTable (loadLanguages sep (fs1 ++ bad :: fs2) contents langs) loc =
          lookupTable (loadLanguages sep (fs1 ++ fs2) contents langs) loc) := by
  refine ⟨?_, ?_, ?_⟩
  · intro sep langs filename
    simp [loadFileStep, lookupTable_objDelete]
  · intro sep langs filename parsed loc hne
    exact lookupTable_loadFileStep_ne sep langs filename parsed loc (fun hh => hne hh.symm)
  · intro sep contents langs fs1 fs2 bad loc hbad hne
    have hne' : ¬ (basenameNoJson bad = loc) := fun hh => hne hh.symm
    have hL : loadLanguages sep (fs1 ++ bad :: fs2) contents langs =
        loadLanguages sep (bad :: fs2) contents (loadLanguages sep fs1 contents langs) := by
      unfold loadLanguages
      rw [List.foldl_append]
    have hR : loadLanguages sep (fs1 ++ fs2) contents langs =
        loadLanguages sep fs2 contents (loadLanguages sep fs1 contents langs) := by
      unfold loadLanguages
      rw [List.foldl_append]
    rw [hL, hR, loadLanguages_cons]
    apply loadLanguages_lookup_congr
    by_cases hj : endsWithJson bad = true
    · simp only [hj, if_true, hbad]
      exact lookupTable_loadFileStep_ne sep _ bad none loc hne'
    · simp [hj]

/-- Witness for amended C1 at concrete inputs. -/
theorem claim_c1_amended_witness :
    lookupTable (loadFileStep "." [] "en.json" none) (basenameNoJson "en.json") = none
    ∧ lookupTable (loadFileStep "." [("fr", [("a", "b")])] "en.json" none) "fr" =
        lookupTable [("fr", [("a", "b")])] "fr"
    ∧ lookupTable (loadLanguages "." (["fr.json"] ++ "en.json" :: []) (fun _ => none) []) "fr" =
        lookupTable (loadLanguages "." (["fr.json"] ++ []) (fun _ => none) []) "fr" :=
  ⟨claim_c1_amended.1 "." [] "en.json",
   claim_c1_amended.2.1 "." [("fr", [("a", "b")])] "en.json" none "fr" (by decide),
   claim_c1_amended.2.2 "." (fun _ => none) [] ["fr.json"] [] "en.json" "fr" rfl (by decide)⟩

/-! ## C2 -/

/-- C2 counterexample: a pending reconciliation armed by a
content-changed ("change") notification fires with the file absent; the
Locale Table is left unchanged, the locale's entry is not evicted. -/
theorem claim_c2_counterexample :
    (fireReconcile "." "change" StatResult.notFound (some []) [("en", [("k", "v")])] "en.json").1
      = [("en", [("k", "v")])]
    ∧ lookupTable [("en", [("k", "v")])] "en" = some [("k", "v")] :=
  ⟨rfl, rfl⟩

/-- C2 (amended): when a timer fires and the existence check reports
not-found, the evict (removal of the derived locale's entry) happens
only for the created-or-renamed-or-deleted ("rename") event kind; for
the content-changed ("change") kind the Locale Table is left unchanged
and no action is performed. -/
theorem claim_c2_amended :
    ∀ (sep : String) (parsed : Option (List (String × JVal))) (langs : Table) (filename : String),
      ((fireReconcile sep "rename" StatResult.notFound parsed langs filename).1
          = objDelete langs (basenameNoJson filename)
        ∧ lookupTable (fireReconcile sep "rename" StatResult.notFound parsed langs filename).1
            (basenameNoJson filename) = none
        ∧ (fireReconcile sep "rename" StatResult.notFound parsed langs filename).2
            = [Action.evict (basenameNoJson filename)])
      ∧ (fireReconcile sep "change" StatResult.notFound parsed langs filename).1 = langs
      ∧ (fireReconcile sep "change" StatResult.notFound parsed langs filename).2 = [] := by
  intro sep parsed langs filename
  refine ⟨⟨rfl, ?_, rfl⟩, rfl, rfl⟩
  show lookupTable (objDelete langs (basenameNoJson filename)) (basenameNoJson filename) = none
  simp [lookupTable_objDelete]

/-! ## Flattening: specification-level description and lemmas (C3, C9) -/

/-- The flat entries a tree should produce: one entry per terminal
(non-map) value, in traversal order, keyed by the composed path and
holding the stringified value. -/
def flatList (sep parentKey : String) : List (String × JVal) → List (String × String)
  | [] => []
  | (key, value) :: rest =>
    let fullKey := if parentKey = "" then key else parentKey ++ sep ++ key
    match value with
    | JVal.vobj sub => flatList sep fullKey sub ++ flatList sep parentKey rest
    | v => (fullKey, jsToString (nullishToEmpty v)) :: flatList sep parentKey rest
termination_by entries => sizeOf entries

/-- Number of terminal (non-map) values in a tree. -/
def countTerminals : List (String × JVal) → Nat
  | [] => 0
  | (_, JVal.vobj sub) :: rest => countTerminals sub + countTerminals rest
  | _ :: rest => 1 + countTerminals rest
termination_by entries => sizeOf entries

/-- The composed path of every terminal value of a tree, in traversal
order. -/
def leafPaths (sep : String) (tree : List (String × JVal)) : List String :=
  (flatList sep "" tree).map Prod.fst

theorem flattenAux_nil (sep parentKey : String) (result : FlatMap) :
    flattenAux sep parentKey [] result = result := by
  simp [flattenAux]

theorem flattenAux_cons_obj (sep parentKey key : String) (sub rest : List (String × JVal))
    (result : FlatMap) :
    flattenAux sep parentKey ((key, JVal.vobj sub) :: rest) result =
      flattenAux sep parentKey rest
        (objAssign result
          (flattenAux sep (if parentKey = "" then key else parentKey ++ sep ++ key) sub [])) := by
  simp [flattenAux]

theorem flattenAux_cons_leaf (sep parentKey key : String) (v : JVal)
    (rest : List (String × JVal)) (result : FlatMap)
    (hv : ∀ sub, v ≠ JVal.vobj sub) :
    flattenAux sep parentKey ((key, v) :: rest) result =
      flattenAux sep parentKey rest
        (objInsert result (if parentKey = "" then key else parentKey ++ sep ++ key)
          (jsToString (nullishToEmpty v))) := by
  cases v <;> first
    | exact absurd rfl (hv _)
    | simp [flattenAux]

theorem flatList_nil (sep parentKey : String) : flatList sep parentKey [] = [] := by
  simp [flatList]

theorem flatList_cons_obj (sep parentKey key : String) (sub rest : List (String × JVal)) :
    flatList sep parentKey ((key, JVal.vobj sub) :: rest) =
      flatList sep (if parentKey = "" then key else parentKey ++ sep ++ key) sub ++
        flatList sep parentKey rest := by
  simp [flatList]

theorem flatList_cons_leaf (sep parentKey key : String) (v : JVal)
    (rest : List (String × JVal)) (hv : ∀ sub, v ≠ JVal.vobj sub) :
    flatList sep parentKey ((key, v) :: rest) =
      ((if parentKey = "" then key else parentKey ++ sep ++ key),
        jsToString (nullishToEmpty v)) :: flatList sep parentKey rest := by
  cases v <;> first
    | exact absurd rfl (hv _)
    | simp [flatList]

theorem countTerminals_nil : countTerminals [] = 0 := by
  simp [countTerminals]

theorem countTerminals_cons_obj (key : String) (sub rest : List (String × JVal)) :
    countTerminals ((key, JVal.vobj sub) :: rest) = countTerminals sub + countTerminals rest := by
  simp [countTerminals]

theorem countTerminals_cons_leaf (key : String) (v : JVal) (rest : List (String × JVal))
    (hv : ∀ sub, v ≠ JVal.vobj sub) :
    countTerminals ((key, v) :: rest) = 1 + countTerminals rest := by
  cases v <;> first
    | exact absurd rfl (hv _)
    | simp [countTerminals]

/-- A property write for a fresh key appends the entry. -/
theorem objInsert_append {α : Type} (m : List (String × α)) (k : String) (v : α)
    (h : ¬ k ∈ m.map Prod.fst) : objInsert m k v = m ++ [(k, v)] := by
  induction m with
  | nil => rfl
  | cons kv rest ih =>
    obtain ⟨k0, v0⟩ := kv
    have h1 : ¬ (k0 = k) := by
      intro hh
      exact h (by simp [hh])
    have h2 : ¬ k ∈ rest.map Prod.fst := by
      intro hh
      exact h (by simp [hh])
    simp [objInsert, h1, ih h2]

/-- `Object.assign` with keys fresh for the target and no internal
duplicates is plain concatenation. -/
theorem objAssign_fresh {α : Type} :
    ∀ (other m : List (String × α)),
      (other.map Prod.fst).Nodup →
      (∀ x ∈ other.map Prod.fst, ¬ x ∈ m.map Prod.fst) →
      objAssign m other = m ++ other := by
  intro other
  induction other with
  | nil =>
    intro m _ _
    simp [objAssign]
  | cons kv o ih =>
    intro m hnd hdis
    obtain ⟨k, v⟩ := kv
    have hk : ¬ k ∈ m.map Prod.fst := hdis k (by simp)
    have hnd' : (o.map Prod.fst).Nodup ∧ ¬ k ∈ o.map Prod.fst := by
      rw [List.map_cons, List.nodup_cons] at hnd
      exact ⟨hnd.2, hnd.1⟩
    have step : objAssign m ((k, v) :: o) = objAssign (objInsert m k v) o := rfl
    rw [step, objInsert_append m k v hk, ih (m ++ [(k, v)]) hnd'.1]
    · simp
    · intro x hx
      have hxk : ¬ (x = k) := by
        intro hh
        subst hh
        exact hnd'.2 hx
      have hxm : ¬ x ∈ m.map Prod.fst := hdis x (by simp [hx])
      simp [hxm, hxk]

/-- The leaf case of the main flattening lemma, shared by all
non-object value constructors. -/
theorem flattenAux_eq_leaf (sep : String) (N : Nat)
    (ih : ∀ (entries : List (String × JVal)), sizeOf entries ≤ N →
      ∀ (parentKey : String) (result : FlatMap),
        ((result ++ flatList sep parentKey entries).map Prod.fst).Nodup →
        flattenAux sep parentKey entries result = result ++ flatList sep parentKey entries)
    (key : String) (v : JVal) (rest : List (String × JVal)) (hszr : sizeOf rest ≤ N)
    (parentKey : String) (result : FlatMap)
    (hv : ∀ sub, v ≠ JVal.vobj sub)
    (h : ((result ++ flatList sep parentKey ((key, v) :: rest)).map Prod.fst).Nodup) :
    flattenAux sep parentKey ((key, v) :: rest) result =
      result ++ flatList sep parentKey ((key, v) :: rest) := by
  rw [flattenAux_cons_leaf sep parentKey key v rest result hv]
  rw [flatList_cons_leaf sep parentKey key v rest hv] at h ⊢
  have h' := h
  rw [List.map_append, List.map_cons, List.nodup_append] at h'
  obtain ⟨hR, hcons, hdis⟩ := h'
  have hfk : ¬ (if parentKey = "" then key else parentKey ++ sep ++ key) ∈
      result.map Prod.fst := by
    intro hmem
    exact hdis hmem (List.mem_cons_self _ _)
  rw [objInsert_append result _ _ hfk]
  have hrest := ih rest hszr parentKey
    (result ++ [((if parentKey = "" then key else parentKey ++ sep ++ key),
      jsToString (nullishToEmpty v))])
    (by
      rw [List.map_append, List.map_append, List.nodup_append]
      refine ⟨?_, ?_, ?_⟩
      · rw [List.nodup_append]
        refine ⟨hR, by simp, ?_⟩
        intro a ha hamem
        simp at hamem
        subst hamem
        exact hdis ha (List.mem_cons_self _ _)
      · exact (List.nodup_cons.mp hcons).2
      · intro a ha hamem
        rcases List.mem_append.mp ha with haR | hafk
        · exact hdis haR (List.mem_cons_of_mem _ hamem)
        · simp at hafk
          subst hafk
          exact (List.nodup_cons.mp hcons).1 hamem)
  rw [hrest, List.append_assoc]
  rfl

/-- Key step for C3/C9: when the leaf paths produced so far are all
distinct, `_flatten` produces exactly the specification-level flat list,
appended to the accumulated result. -/
theorem flattenAux_eq_n (sep : String) (N : Nat) :
    ∀ (entries : List (String × JVal)), sizeOf entries ≤ N →
      ∀ (parentKey : String) (result : FlatMap),
        ((result ++ flatList sep parentKey entries).map Prod.fst).Nodup →
        flattenAux sep parentKey entries result = result ++ flatList sep parentKey entries := by
  induction N with
  | zero =>
    intro entries hsz
    exfalso
    cases entries <;> simp at hsz
  | succ N ih =>
    intro entries hsz parentKey result h
    match entries with
    | [] => simp [flattenAux_nil, flatList_nil]
    | (key, value) :: rest =>
      have hszr : sizeOf rest ≤ N := by
        simp at hsz
        omega
      cases value with
      | vobj sub =>
        have hszs : sizeOf sub ≤ N := by
          simp at hsz
          omega
        rw [flattenAux_cons_obj]
        rw [flatList_cons_obj] at h ⊢
        have h' := h
        rw [List.map_append, List.map_append, List.nodup_append] at h'
        obtain ⟨hR, hAB, hdisR⟩ := h'
        rw [List.nodup_append] at hAB
        obtain ⟨hA, hB, hdisAB⟩ := hAB
        have hinner : flattenAux sep
            (if parentKey = "" then key else parentKey ++ sep ++ key) sub [] =
            flatList sep (if parentKey = "" then key else parentKey ++ sep ++ key) sub := by
          have := ih sub hszs (if parentKey = "" then key else parentKey ++ sep ++ key) []
            (by simpa using hA)
          simpa using this
        rw [hinner]
        have hassign : objAssign result
            (flatList sep (if parentKey = "" then key else parentKey ++ sep ++ key) sub) =
            result ++ flatList sep (if parentKey = "" then key else parentKey ++ sep ++ key) sub := by
          apply objAssign_fresh _ _ hA
          intro x hx hxm
          exact hdisR hxm (List.mem_append.mpr (Or.inl hx))
        rw [hassign]
        have hrest := ih rest hszr parentKey
          (result ++ flatList sep (if parentKey = "" then key else parentKey ++ sep ++ key) sub)
          (by
            rw [List.map_append, List.map_append, List.nodup_append]
            refine ⟨?_, hB, ?_⟩
            · rw [List.nodup_append]
              refine ⟨hR, hA, ?_⟩
              intro a ha hamem
              exact hdisR ha (List.mem_append.mpr (Or.inl hamem))
            · intro a ha hamem
              rcases List.mem_append.mp ha with haR | haA
              · exact hdisR haR (List.mem_append.mpr (Or.inr hamem))
              · exact hdisAB haA hamem)
        rw [hrest, List.append_assoc]
      | vstr s₀ =>
        exact flattenAux_eq_leaf sep N ih key (JVal.vstr s₀) rest hszr parentKey result
          (fun sub hh => JVal.noConfusion hh) h
      | vnum n₀ =>
        exact flattenAux_eq_leaf sep N ih key (JVal.vnum n₀) rest hszr parentKey result
          (fun sub hh => JVal.noConfusion hh) h
      | vbool b₀ =>
        exact flattenAux_eq_leaf sep N ih key (JVal.vbool b₀) rest hszr parentKey result
          (fun sub hh => JVal.noConfusion hh) h
      | vnull =>
        exact flattenAux_eq_leaf sep N ih key JVal.vnull rest hszr parentKey result
          (fun sub hh => JVal.noConfusion hh) h
      | vundef =>
        exact flattenAux_eq_leaf sep N ih key JVal.vundef rest hszr parentKey result
          (fun sub hh => JVal.noConfusion hh) h
      | varr xs =>
        exact flattenAux_eq_leaf sep N ih key (JVal.varr xs) rest hszr parentKey result
          (fun sub hh => JVal.noConfusion hh) h

/-- The spec-level flat list has exactly one entry per terminal value. -/
theorem flatList_length_n (sep : String) (N : Nat) :
    ∀ (entries : List (String × JVal)), sizeOf entries ≤ N → ∀ (parentKey : String),
      (flatList sep parentKey entries).length = countTerminals entries := by
  induction N with
  | zero =>
    intro entries hsz
    exfalso
    cases entries <;> simp at hsz
  | succ N ih =>
    intro entries hsz parentKey
    match entries with
    | [] => simp [flatList_nil, countTerminals_nil]
    | (key, value) :: rest =>
      have hszr : sizeOf rest ≤ N := by
        simp at hsz
        omega
      cases value
      case vobj sub =>
        have hszs : sizeOf sub ≤ N := by
          simp at hsz
          omega
        rw [flatList_cons_obj, countTerminals_cons_obj, List.length_append,
          ih sub hszs _, ih rest hszr parentKey]
      all_goals
        rw [flatList_cons_leaf _ _ _ _ _ (fun sub hh => JVal.noConfusion hh),
          countTerminals_cons_leaf _ _ _ (fun sub hh => JVal.noConfusion hh)]
        simp [List.length_cons, ih rest hszr parentKey, Nat.add_comm]

/-- `flatList_length_n` at the exact size. -/
theorem flatList_length (sep parentKey : String) (entries : List (String × JVal)) :
    (flatList sep parentKey entries).length = countTerminals entries :=
  flatList_length_n sep (sizeOf entries) entries le_rfl parentKey

/-- When all leaf paths are distinct, `_flatten` produces exactly the
spec-level flat list. -/
theorem flatten_eq_flatList (tree : List (String × JVal)) (sep : String)
    (h : (leafPaths sep tree).Nodup) :
    flatten tree sep = flatList sep "" tree := by
  have := flattenAux_eq_n sep (sizeOf tree) tree le_rfl "" []
    (by simpa [leafPaths] using h)
  simpa [flatten] using this

/-! ## C3 -/

/-- C3 counterexample: the tree with entries `a ↦ {b ↦ "x"}` and
`"a.b" ↦ "y"` has two terminal values, but both reach the same flat key
"a.b", so flatten returns a single entry: the claimed "exactly one entry
per terminal value, with no key collisions" fails. -/
theorem claim_c3_counterexample :
    flatten [("a", JVal.vobj [("b", JVal.vstr "x")]), ("a.b", JVal.vstr "y")] "." = [("a.b", "y")]
    ∧ countTerminals [("a", JVal.vobj [("b", JVal.vstr "x")]), ("a.b", JVal.vstr "y")] = 2
    ∧ (flatten [("a", JVal.vobj [("b", JVal.vstr "x")]), ("a.b", JVal.vstr "y")] ".").length ≠
        countTerminals [("a", JVal.vobj [("b", JVal.vstr "x")]), ("a.b", JVal.vstr "y")] := by
  have he : flatten [("a", JVal.vobj [("b", JVal.vstr "x")]), ("a.b", JVal.vstr "y")] "."
      = [("a.b", "y")] := by
    simp [flatten, flattenAux, objAssign, objInsert, jsToString, nullishToEmpty]
  have hc : countTerminals [("a", JVal.vobj [("b", JVal.vstr "x")]), ("a.b", JVal.vstr "y")]
      = 2 := by
    simp [countTerminals]
  refine ⟨he, hc, ?_⟩
  rw [he, hc]
  decide

/-- C3 (amended): provided the composed leaf paths of the tree are
pairwise distinct (which rules out collisions such as a literal "a.b"
key next to a nested `a.b` path), flatten emits exactly the leaf paths
as keys — hence exactly one entry per terminal value and no
collisions. -/
theorem claim_c3_amended (tree : List (String × JVal)) (sep : String)
    (h : (leafPaths sep tree).Nodup) :
    (flatten tree sep).map Prod.fst = leafPaths sep tree
    ∧ (flatten tree sep).length = countTerminals tree := by
  have he := flatten_eq_flatList tree sep h
  constructor
  · rw [he]
    rfl
  · rw [he]
    exact flatList_length sep "" tree

/-- Witness for amended C3 on a collision-free tree. -/
theorem claim_c3_amended_witness :
    (leafPaths "." [("a", JVal.vobj [("b", JVal.vstr "x")]), ("c", JVal.vstr "y")]).Nodup
    ∧ ((flatten [("a", JVal.vobj [("b", JVal.vstr "x")]), ("c", JVal.vstr "y")] ".").map
          Prod.fst =
        leafPaths "." [("a", JVal.vobj [("b", JVal.vstr "x")]), ("c", JVal.vstr "y")]
      ∧ (flatten [("a", JVal.vobj [("b", JVal.vstr "x")]), ("c", JVal.vstr "y")] ".").length =
          countTerminals [("a", JVal.vobj [("b", JVal.vstr "x")]), ("c", JVal.vstr "y")]) := by
  have hnd : (leafPaths "." [("a", JVal.vobj [("b", JVal.vstr "x")]),
      ("c", JVal.vstr "y")]).Nodup := by
    have : leafPaths "." [("a", JVal.vobj [("b", JVal.vstr "x")]), ("c", JVal.vstr "y")]
        = ["a.b", "c"] := by
      simp [leafPaths, flatList, jsToString, nullishToEmpty]
    rw [this]
    decide
  exact ⟨hnd, claim_c3_amended _ "." hnd⟩

/-! ## C9 -/

/-- C9 counterexample: a tree with no nested maps whose single value is
the number 3 flattens to the string "3", so the output's values are not
identical to the input's. -/
theorem claim_c9_counterexample :
    flatten [("a", JVal.vnum 3)] "." = [("a", "3")]
    ∧ (flatten [("a", JVal.vnum 3)] ".").map (fun kv => (kv.1, JVal.vstr kv.2)) ≠
        [("a", JVal.vnum 3)] := by
  have he : flatten [("a", JVal.vnum 3)] "." = [("a", "3")] := by
    simp [flatten, flattenAux, objInsert, jsToString, nullishToEmpty]
    rfl
  refine ⟨he, ?_⟩
  rw [he]
  simp

/-- C9 (amended): for a tree with no nested maps whose values are all
strings (and distinct keys, as JS objects guarantee), flatten returns
exactly the input entries. -/
theorem claim_c9_amended (entries : List (String × JVal)) (sep : String)
    (hstr : ∀ kv ∈ entries, ∃ s, kv.2 = JVal.vstr s)
    (hnd : (entries.map Prod.fst).Nodup) :
    (flatten entries sep).map (fun kv => (kv.1, JVal.vstr kv.2)) = entries := by
  have hflat : ∀ (es : List (String × JVal)), (∀ kv ∈ es, ∃ s, kv.2 = JVal.vstr s) →
      flatList sep "" es = es.map (fun kv => (kv.1, jsToString (nullishToEmpty kv.2))) := by
    intro es
    induction es with
    | nil =>
      intro _
      simp [flatList_nil]
    | cons kv rest ih =>
      intro hs
      obtain ⟨k, v⟩ := kv
      obtain ⟨s, hv⟩ := hs (k, v) (by simp)
      have hv' : v = JVal.vstr s := hv
      subst hv'
      rw [flatList_cons_leaf sep "" k (JVal.vstr s) rest (fun sub hh => JVal.noConfusion hh)]
      simp [ih (fun kv hkv => hs kv (List.mem_cons_of_mem _ hkv))]
  have hback : ∀ (es : List (String × JVal)), (∀ kv ∈ es, ∃ s, kv.2 = JVal.vstr s) →
      (es.map (fun kv => (kv.1, jsToString (nullishToEmpty kv.2)))).map
        (fun kv => (kv.1, JVal.vstr kv.2)) = es := by
    intro es
    induction es with
    | nil =>
      intro _
      simp
    | cons kv rest ih =>
      intro hs
      obtain ⟨k, v⟩ := kv
      obtain ⟨s, hv⟩ := hs (k, v) (by simp)
      have hv' : v = JVal.vstr s := hv
      subst hv'
      rw [List.map_cons, List.map_cons, ih (fun kv hkv => hs kv (List.mem_cons_of_mem _ hkv))]
      simp [jsToString, nullishToEmpty]
  have hnd2 : (leafPaths sep entries).Nodup := by
    rw [leafPaths, hflat entries hstr, List.map_map]
    have : (Prod.fst ∘ fun kv : String × JVal =>
        (kv.1, jsToString (nullishToEmpty kv.2))) = Prod.fst := rfl
    rw [this]
    exact hnd
  rw [flatten_eq_flatList entries sep hnd2, hflat entries hstr]
  exact hback entries hstr

/-- Witness for amended C9 on a concrete already-flat string tree. -/
theorem claim_c9_amended_witness :
    (∀ kv ∈ [("a", JVal.vstr "x"), ("b", JVal.vstr "y")], ∃ s, kv.2 = JVal.vstr s)
    ∧ ([("a", JVal.vstr "x"), ("b", JVal.vstr "y")].map Prod.fst).Nodup
    ∧ (flatten [("a", JVal.vstr "x"), ("b", JVal.vstr "y")] ".").map
        (fun kv => (kv.1, JVal.vstr kv.2)) = [("a", JVal.vstr "x"), ("b", JVal.vstr "y")] := by
  have h1 : ∀ kv ∈ [("a", JVal.vstr "x"), ("b", JVal.vstr "y")], ∃ s, kv.2 = JVal.vstr s := by
    intro kv hkv
    simp at hkv
    rcases hkv with rfl | rfl
    · exact ⟨"x", rfl⟩
    · exact ⟨"y", rfl⟩
  have h2 : ([("a", JVal.vstr "x"), ("b", JVal.vstr "y")].map
      (Prod.fst : String × JVal → String)).Nodup := by
    decide
  exact ⟨h1, h2, claim_c9_amended _ "." h1 h2⟩

/-! ## Template engine lemmas (C7, C8) -/

/-- `takeWhile` over a satisfying block followed by a failing character
returns exactly the block. -/
theorem takeWhile_append_stop (p : Char → Bool) :
    ∀ (w : List Char) (x : Char) (r : List Char),
      (∀ c ∈ w, p c = true) → p x = false → (w ++ x :: r).takeWhile p = w := by
  intro w
  induction w with
  | nil =>
    intro x r _ hx
    simp [List.takeWhile_cons, hx]
  | cons a w ih =>
    intro x r hall hx
    have ha : p a = true := hall a (by simp)
    simp [List.takeWhile_cons, ha, ih x r (fun c hc => hall c (by simp [hc])) hx]

/-! ## C8 -/

/-- C8: a `{identifier}` token whose identifier has no entry in
the args is left verbatim (braces included) in the output: the scan
copies any prefix without an opening brace, emits the token unchanged,
and continues after it; and with an empty args object the template is
returned untouched. -/
theorem claim_c8 :
    (∀ (values : List (String × JVal)) (pre w rest : List Char),
        (∀ c ∈ pre, ¬ c = '{') → w ≠ [] → (∀ c ∈ w, isWordChar c = true) →
        lookupArg values (String.mk w) = none →
        replaceAux values (pre ++ '{' :: w ++ '}' :: rest) =
          pre ++ '{' :: w ++ '}' :: replaceAux values rest)
    ∧ (∀ (template : String), replacePlaceholders template [] = template) := by
  constructor
  · intro values pre
    induction pre with
    | nil =>
      intro w rest hpre hne hw hlk
      have hrun : (w ++ '}' :: rest).takeWhile isWordChar = w :=
        takeWhile_append_stop isWordChar w '}' rest hw (by decide)
      have hdrop : (w ++ '}' :: rest).drop w.length = '}' :: rest :=
        List.drop_left w ('}' :: rest)
      rw [List.nil_append, List.cons_append, replaceAux.eq_2, if_pos rfl]
      simp only [hrun, hdrop]
      rw [if_pos (⟨rfl, hne⟩ : ('}' :: rest).head? = some '}' ∧ w ≠ [])]
      rw [hlk]
      rfl
    | cons a pre ih =>
      intro w rest hpre hne hw hlk
      have ha : ¬ (a = '{') := hpre a (by simp)
      have hpre' : ∀ c ∈ pre, ¬ c = '{' := fun c hc => hpre c (by simp [hc])
      simp only [List.cons_append]
      rw [replaceAux.eq_2, if_neg ha]
      rw [ih w rest hpre' hne hw hlk]
  · intro template
    simp [replacePlaceholders]

/-- Witness for C8: the token of "Hi {x}" survives substitution
with unrelated args, and an empty args object returns the template. -/
theorem claim_c8_witness :
    replaceAux [("y", JVal.vnum 1)] (['H', 'i', ' '] ++ '{' :: ['x'] ++ '}' :: []) =
      ['H', 'i', ' '] ++ '{' :: ['x'] ++ '}' :: replaceAux [("y", JVal.vnum 1)] []
    ∧ replacePlaceholders "Hi {x}" [] = "Hi {x}" :=
  ⟨claim_c8.1 [("y", JVal.vnum 1)] ['H', 'i', ' '] ['x'] []
      (by decide) (by decide) (by decide) rfl,
   claim_c8.2 "Hi {x}"⟩

/-! ## C7 -/

/-- C7 counterexample: an array argument containing the boolean `true`
(not a string or number, hence a non-scalar element in the claim's
sense) is not replaced by the empty string: `String(true ?? '')` is
"true". -/
theorem claim_c7_counterexample :
    replacePlaceholders "{list}" [("list", JVal.varr [JVal.vbool true])] = "true"
    ∧ ("true" : String) ≠ "" := by
  constructor
  · simp +decide [replacePlaceholders, replaceAux, isWordChar, lookupArg, jsSubstValue,
      nullishToEmpty, jsToString, List.takeWhile_cons]
  · decide

/-- C7 (amended): when a placeholder identifier maps to an array, the
replacement is the array's elements each converted by `String(v ?? '')`
— strings and numbers to their string form, null/undefined to the empty
string, and any other element to its standard JS string conversion
(booleans to "true"/"false", plain objects to "[object Object]", not to
the empty string) — joined with ", ". -/
theorem claim_c7_amended (w : List Char) (xs : List JVal)
    (hne : w ≠ []) (hw : ∀ c ∈ w, isWordChar c = true) :
    replacePlaceholders (String.mk ('{' :: w ++ ['}'])) [(String.mk w, JVal.varr xs)] =
      String.intercalate ", " (xs.map fun v => jsToString (nullishToEmpty v)) := by
  have hrun : (w ++ ['}']).takeWhile isWordChar = w :=
    takeWhile_append_stop isWordChar w '}' [] hw (by decide)
  have hdrop : (w ++ ['}']).drop w.length = ['}'] :=
    List.drop_left w ['}']
  have hlk : lookupArg [(String.mk w, JVal.varr xs)] (String.mk w) =
      some (JVal.varr xs) := by
    simp [lookupArg]
  have hstep : replacePlaceholders (String.mk ('{' :: w ++ ['}'])) [(String.mk w, JVal.varr xs)]
      = String.mk (replaceAux [(String.mk w, JVal.varr xs)] ('{' :: (w ++ ['}']))) := rfl
  rw [hstep, replaceAux.eq_2, if_pos rfl]
  simp only [hrun, hdrop]
  rw [if_pos (⟨rfl, hne⟩ : (['}'] : List Char).head? = some '}' ∧ w ≠ [])]
  rw [hlk]
  simp only [List.tail_cons]
  rw [replaceAux.eq_1]
  simp only [List.append_nil]
  rfl

/-- Witness for amended C7: the spec's array-join example. -/
theorem claim_c7_amended_witness :
    replacePlaceholders (String.mk ('{' :: "list".data ++ ['}']))
        [(String.mk "list".data, JVal.varr [JVal.vstr "a", JVal.vstr "b", JVal.vnum 3])] =
      String.intercalate ", " ([JVal.vstr "a", JVal.vstr "b", JVal.vnum 3].map
        fun v => jsToString (nullishToEmpty v))
    ∧ String.intercalate ", " ([JVal.vstr "a", JVal.vstr "b", JVal.vnum 3].map
        fun v => jsToString (nullishToEmpty v)) = "a, b, 3" := by
  constructor
  · exact claim_c7_amended "list".data [JVal.vstr "a", JVal.vstr "b", JVal.vnum 3]
      (by decide) (by decide)
  · simp [jsToString, nullishToEmpty]
    rfl

/-! ## C6 -/

/-- C6: two watcher notifications for the same `.json` filename, the
second arriving before the first one's debounce deadline, produce
exactly one reconciliation action — one reload — over the whole run:
the second notification cancels the first timer and arms a fresh timer
with a full `debounceDelay`, and only that timer fires. -/
theorem claim_c6 (t1 t2 : Nat) (ev1 ev2 f sep : String) (stat : String → StatResult)
    (contents : String → Option (List (String × JVal))) (langs : Table)
    (hf : endsWithJson f = true)
    (_h12 : t1 ≤ t2)
    (hwin : t2 < t1 + debounceDelay)
    (hstat : stat f = StatResult.found)
    (hev : ev2 = "change" ∨ ev2 = "rename") :
    (runLoop sep stat contents [⟨t1, ev1, f⟩, ⟨t2, ev2, f⟩] [] langs).2 = [Action.reload f]
    ∧ notify (notify [] t1 ev1 f) t2 ev2 f =
        [⟨f, basenameNoJson f, ev2, t2 + debounceDelay⟩] := by
  have hnot : ¬ (t1 + debounceDelay < t2) := by omega
  have hn1 : notify [] t1 ev1 f = [⟨f, basenameNoJson f, ev1, t1 + debounceDelay⟩] := by
    simp [notify, hf]
  have hn2 : notify [⟨f, basenameNoJson f, ev1, t1 + debounceDelay⟩] t2 ev2 f =
      [⟨f, basenameNoJson f, ev2, t2 + debounceDelay⟩] := by
    simp [notify, hf]
  constructor
  · rw [runLoop.eq_2]
    dsimp only [earliest]
    rw [hn1, runLoop.eq_2]
    dsimp only [earliest]
    rw [if_neg hnot, hn2, runLoop.eq_1]
    dsimp only [earliest]
    rw [List.erase_cons_head, runLoop.eq_1]
    dsimp only [earliest]
    rw [hstat]
    rcases hev with h | h <;> subst h <;> simp [fireReconcile]
  · rw [hn1, hn2]

/-- Witness for C6 at concrete inputs: notifications at times 0 and 50
for "en.json" within the 100ms window. -/
theorem claim_c6_witness :
    endsWithJson "en.json" = true ∧ (0 : Nat) ≤ 50 ∧ 50 < 0 + debounceDelay
    ∧ ((runLoop "." (fun _ => StatResult.found) (fun _ => some [])
          [⟨0, "change", "en.json"⟩, ⟨50, "change", "en.json"⟩] [] []).2 =
        [Action.reload "en.json"]
      ∧ notify (notify [] 0 "change" "en.json") 50 "change" "en.json" =
          [⟨"en.json", basenameNoJson "en.json", "change", 50 + debounceDelay⟩]) :=
  ⟨by decide, by decide, by decide,
   claim_c6 0 50 "change" "change" "en.json" "." (fun _ => StatResult.found)
     (fun _ => some []) [] (by decide) (by decide) (by decide) rfl (Or.inl rfl)⟩

end Langpack
